import Mathlib

/-!
Verification of the apsis content-addressed store against its
specification.  The development shallowly embeds the Rust sources of
the `apsisd` daemon (`api.rs`, `utils.rs`, `db.rs`, `main.rs`) as Lean
functions over lists of bytes (bytes are `Nat` values), and models the
external collaborators (the eris-rs encoder and decoder, the base32
codec, Blake2b, ChaCha20, the DHT and peer HTTP fetches) from the
specification, with the cryptographic primitives kept as parameters of
an `Oracles` structure.
-/

set_option maxHeartbeats 1000000
set_option maxRecDepth 4000

/-- Rust `str::split_once(pat)` restricted to the part after the match:
returns the tail of the list after the first occurrence of `pat`, or
`none` when `pat` does not occur. -/
def splitOnceTail (pat : List Char) : List Char → Option (List Char)
  | [] => if pat.isPrefixOf ([] : List Char) then some ([] : List Char) else none
  | c :: rest =>
    if pat.isPrefixOf (c :: rest) then some ((c :: rest).drop pat.length)
    else splitOnceTail pat rest

/-- Splits a list into consecutive chunks of `n` elements; the last
chunk holds the remainder (the whole list when `n = 0`). -/
def chunksOf (n : Nat) (l : List α) : List (List α) :=
  if _h : 0 < n ∧ n < l.length then
    l.take n :: chunksOf n (l.drop n)
  else [l]
termination_by l.length
decreasing_by simp only [List.length_drop]; omega

/-- Modelled from the spec: the chunk-and-pad step of the eris-rs
encoder (spec 4.4 step 1).  Splits the input into `bs`-byte chunks and
pads the final chunk with a single `0x80` byte followed by zeros; an
input ending exactly on a block boundary yields an extra full pad
block. -/
def chunkPad (bs : Nat) (x : List Nat) : List (List Nat) :=
  if _h : 0 < bs ∧ bs ≤ x.length then
    x.take bs :: chunkPad bs (x.drop bs)
  else [x ++ 128 :: List.replicate (bs - x.length - 1) 0]
termination_by x.length
decreasing_by simp only [List.length_drop]; omega

/-- RFC 4648 base32 alphabet. -/
def b32Alphabet : List Char := "ABCDEFGHIJKLMNOPQRSTUVWXYZ234567".data

/-- Value of one base32 character (case-insensitive, as in the base32
crate), or `none` for a character outside the alphabet. -/
def b32CharVal (c : Char) : Option Nat :=
  b32Alphabet.findIdx? (fun a => a == c.toUpper)

/-- Character for a 5-bit group. -/
def b32Char (v : Nat) : Char := b32Alphabet.getD v 'A'

/-- Modelled from the spec: RFC 4648 base32 decoding without padding
(the base32 crate with `padding: false`), as a bit accumulator; the
accumulator always holds fewer than 8 pending bits, and trailing bits
that do not fill a byte are discarded. -/
def b32DecodeAux : List Char → Nat → Nat → Option (List Nat)
  | [], _, _ => some []
  | c :: cs, acc, nbits =>
    match b32CharVal c with
    | none => none
    | some v =>
      let acc2 := acc * 32 + v
      let nb := nbits + 5
      if 8 ≤ nb then
        (b32DecodeAux cs (acc2 % 2 ^ (nb - 8)) (nb - 8)).map
          (fun bs => acc2 / 2 ^ (nb - 8) % 256 :: bs)
      else
        b32DecodeAux cs acc2 nb

/-- RFC 4648 base32 decode, no padding. -/
def b32Decode (s : List Char) : Option (List Nat) := b32DecodeAux s 0 0

/-- Modelled from the spec: RFC 4648 base32 encoding without padding;
the final partial 5-bit group is filled with zero bits. -/
def b32EncodeAux : List Nat → Nat → Nat → List Char
  | [], acc, nbits => if 0 < nbits then [b32Char (acc * 2 ^ (5 - nbits) % 32)] else []
  | b :: rest, acc, nbits =>
    let acc2 := acc * 256 + b % 256
    let nb := nbits + 8
    if 10 ≤ nb then
      b32Char (acc2 / 2 ^ (nb - 5) % 32) :: b32Char (acc2 / 2 ^ (nb - 10) % 32) ::
        b32EncodeAux rest (acc2 % 2 ^ (nb - 10)) (nb - 10)
    else
      b32Char (acc2 / 2 ^ (nb - 5) % 32) :: b32EncodeAux rest (acc2 % 2 ^ (nb - 5)) (nb - 5)

/-- RFC 4648 base32 encode, no padding. -/
def b32Encode (bytes : List Nat) : List Char := b32EncodeAux bytes 0 0

example : b32Decode "MFRGG".data = some [97, 98, 99] := by decide

example : b32Encode [97, 98, 99] = "MFRGG".data := by decide

/-- External cryptographic and effectful collaborators of the daemon,
kept as parameters of the model: `hash` is unkeyed Blake2b-256 (spec
4.2), `kdf input secret` is Blake2b-256 keyed with the convergence
secret (the per-block key derivation of spec 4.4), `ks key i` is byte
`i` of the ChaCha20 keystream for `key` under the zero nonce,
`rngFill s` models `ChaCha20Rng::fill_bytes` on RNG state `s`
returning 32 bytes and the advanced state, and `parseJson` models
`serde_json::from_slice` returning the serialized form of the parsed
value. -/
structure Oracles where
  hash : List Nat → List Nat
  kdf : List Nat → List Nat → List Nat
  ks : List Nat → Nat → Nat
  rngFill : Nat → List Nat × Nat
  parseJson : List Nat → Option (List Nat)

/-- ChaCha20 as a stream cipher: XOR the keystream into the data.
Encryption and decryption are the same operation. -/
def encBytes (E : Oracles) (key : List Nat) : Nat → List Nat → List Nat
  | _, [] => []
  | i, b :: rest => (b ^^^ E.ks key i) :: encBytes E key (i + 1) rest

/-- Modelled from the spec: the eris-rs `BlockWithReference` handed to
the encoder sink, extended with the per-block key of the RK-pair (spec
4.4, sink signature). -/
structure BlockWithReference where
  reference : List Nat
  key : List Nat
  block : List Nat
deriving DecidableEq

/-- Modelled from the spec: the eris-rs read capability (spec 3). -/
structure ReadCapability where
  blockSize : Nat
  level : Nat
  rootRef : List Nat
  rootKey : List Nat
deriving DecidableEq

/-- Builds one encrypted block from plaintext `pt`: derive the key
with the keyed hash, encrypt with ChaCha20 under a zero nonce, and
reference the ciphertext by its unkeyed hash (spec 4.4 step 2). -/
def mkBlock (E : Oracles) (secret : List Nat) (pt : List Nat) : BlockWithReference :=
  let key := E.kdf pt secret
  let ct := encBytes E key 0 pt
  { reference := E.hash ct, key := key, block := ct }

/-- RK-pair of an emitted block. -/
def pairOf (b : BlockWithReference) : List Nat × List Nat := (b.reference, b.key)

/-- Serializes a group of RK-pairs as consecutive 64-byte pairs,
zero-padding the unused pair slots up to the block size (spec 4.4
step 3). -/
def serializePairs (bs : Nat) (g : List (List Nat × List Nat)) : List Nat :=
  (g.map (fun p => p.1 ++ p.2)).flatten ++ List.replicate (bs - 64 * g.length) 0

/-- Reads successive 64-byte RK-pairs from a decrypted inner block,
stopping at the first pair whose reference is all-zero (spec 3,
invariant 5). -/
def parsePairs (l : List Nat) : List (List Nat × List Nat) :=
  if _h : 64 ≤ l.length then
    let r := l.take 32
    if r = List.replicate 32 0 then []
    else (r, (l.drop 32).take 32) :: parsePairs (l.drop 64)
  else []
termination_by l.length
decreasing_by simp only [List.length_drop]; omega

/-- Modelled from the spec: the level-by-level tree build of the
eris-rs encoder (spec 4.4 step 3): group the RK-pairs of the previous
level into inner nodes of `bs / 64` pairs each, emit each node as a
block, and repeat until exactly one RK-pair remains.  `fuel` bounds
the recursion and is always sufficient when the encoder calls it with
the number of leaves (one level never has more nodes than the
previous). -/
def buildTree (E : Oracles) (secret : List Nat) (bs : Nat) :
    Nat → List (List Nat × List Nat) → Nat → List BlockWithReference →
    (List Nat × List Nat) × Nat × List BlockWithReference
  | _, [], level, acc => (([], []), level, acc)
  | _, [p], level, acc => (p, level, acc)
  | 0, _ :: _ :: _, level, acc => (([], []), level, acc)
  | f + 1, p1 :: p2 :: rest, level, acc =>
    let nodes := (chunksOf (bs / 64) (p1 :: p2 :: rest)).map
      (fun g => mkBlock E secret (serializePairs bs g))
    buildTree E secret bs f (nodes.map pairOf) (level + 1) (acc ++ nodes)

/-- Modelled from the spec: the eris-rs encoder (spec 4.4).  Chunk and
pad the input, emit each leaf as an encrypted block, then build the
inner tree; returns the read capability and the list of blocks handed
to the sink, in emission order. -/
def encode (E : Oracles) (x : List Nat) (secret : List Nat) (bs : Nat) :
    ReadCapability × List BlockWithReference :=
  let leaves := (chunkPad bs x).map (mkBlock E secret)
  let r := buildTree E secret bs leaves.length (leaves.map pairOf) 0 leaves
  ({ blockSize := bs, level := r.2.1, rootRef := r.1.1, rootKey := r.1.2 }, r.2.2)

/-- Strips the stream padding: drop trailing zeros, then a mandatory
`0x80` byte (spec 4.5 step 3); fails when no `0x80` delimits the
padding. -/
def unpad (l : List Nat) : Option (List Nat) :=
  match l.reverse.dropWhile (fun b => b == 0) with
  | 128 :: rest => some rest.reverse
  | _ => none

mutual

/-- Modelled from the spec: the tree walk of the eris-rs decoder (spec
4.5 steps 1, 2 and 4).  Fetches the block through the resolver,
verifies that the unkeyed hash of the ciphertext equals the reference,
decrypts, and either yields the leaf plaintext (level 0) or recurses
into the RK-pairs of an inner block, concatenating the results in
order. -/
def decodeTree (E : Oracles) (resolve : List Nat → Option (List Nat)) :
    Nat → List Nat × List Nat → Option (List Nat)
  | 0, (r, k) =>
    match resolve r with
    | none => none
    | some ct => if E.hash ct = r then some (encBytes E k 0 ct) else none
  | lv + 1, (r, k) =>
    match resolve r with
    | none => none
    | some ct =>
      if E.hash ct = r then decodeList E resolve lv (parsePairs (encBytes E k 0 ct))
      else none
termination_by lv _ => (lv, 0)

/-- Decodes each RK-pair of an inner block in order at the given level
and concatenates the plaintexts. -/
def decodeList (E : Oracles) (resolve : List Nat → Option (List Nat)) :
    Nat → List (List Nat × List Nat) → Option (List Nat)
  | _, [] => some []
  | lv, p :: rest =>
    match decodeTree E resolve lv p with
    | none => none
    | some x =>
      match decodeList E resolve lv rest with
      | none => none
      | some xs => some (x ++ xs)
termination_by lv l => (lv, l.length + 1)

end

/-- Modelled from the spec: the eris-rs decoder (spec 4.5): walk the
capability tree collecting the leaf plaintexts, then strip the stream
padding, which lies entirely in the final leaf. -/
def decode (E : Oracles) (resolve : List Nat → Option (List Nat))
    (cap : ReadCapability) : Option (List Nat) :=
  match decodeTree E resolve cap.level (cap.rootRef, cap.rootKey) with
  | none => none
  | some content => unpad content

/-- Resolver returning exactly the blocks an encoder sink received:
looks a reference up in the emitted block list. -/
def storeOf : List BlockWithReference → List Nat → Option (List Nat)
  | [], _ => none
  | b :: rest, r => if b.reference = r then some b.block else storeOf rest r

/-- Number of rounds of `get_peers` the peer resolver attempts
(`utils.rs`). -/
def MAX_PEER_RETRIES : Nat := 3

/-- Possible failures of the peer fetch path, after the arms of
`ApsisErrorKind` that `fetch_block` can produce: `blockNotFound` for
`ApsisErrorKind::BlockNotFound` and `network` for a propagated
`reqwest` transport error. -/
inductive FetchErr where
  | blockNotFound (msg : String)
  | network (msg : String)
deriving DecidableEq

/-- External network collaborators of `fetch_block`: the DHT handle
(`bootstrapped` flag and `get_peers`, whose result may differ on each
round, indexed by the round number) and the HTTP client (`http peer
reference` models the blocking GET of the bare-reference URN to that
peer, returning the body or a transport error). -/
structure NetEnv where
  bootstrapped : Bool
  getPeers : List Nat → Nat → List (List Nat)
  http : Nat → List Nat → Except String (List Nat)

/-- Inner loop of `fetch_block` (`utils.rs` lines 82-93): try each
candidate peer in order; a transport error is propagated by the `?`
operator (error payload `some e`), a body failing the hash check is
skipped, a body passing it is returned; an exhausted list yields
`none` so the outer loop moves to the next round. -/
def scanPeers (E : Oracles) (env : NetEnv) (reference : List Nat) (check : Bool) :
    List Nat → Except (Option String) (List Nat)
  | [] => Except.error none
  | p :: rest =>
    match env.http p reference with
    | Except.error e => Except.error (some e)
    | Except.ok candidate =>
      if check = true ∧ E.hash candidate ≠ reference then
        scanPeers E env reference check rest
      else Except.ok candidate

/-- Outer loop of `fetch_block`: up to `MAX_PEER_RETRIES` rounds of
`get_peers`, scanning every batch of every round. -/
def fetchRounds (E : Oracles) (env : NetEnv) (reference : List Nat) (check : Bool)
    (tries : Nat) : Except FetchErr (List Nat) :=
  if _h : tries < MAX_PEER_RETRIES then
    match scanPeers E env reference check ((env.getPeers (reference.take 20) tries).flatten) with
    | Except.ok b => Except.ok b
    | Except.error (some e) => Except.error (FetchErr.network e)
    | Except.error none => fetchRounds E env reference check (tries + 1)
  else Except.error (FetchErr.blockNotFound "Failed to fetch valid block.")
termination_by MAX_PEER_RETRIES - tries
decreasing_by simp only [MAX_PEER_RETRIES] at *; omega

/-- Embedding of `utils::fetch_block`: refuse when the DHT is not
bootstrapped, otherwise run the retry loop; the DHT key is the first
20 bytes of the reference (`try_ref_to_id`). -/
def fetch_block (E : Oracles) (env : NetEnv) (reference : List Nat) (check : Bool) :
    Except FetchErr (List Nat) :=
  if env.bootstrapped = true then fetchRounds E env reference check 0
  else Except.error (FetchErr.blockNotFound "DHT failed to bootstrap.")

/-- Embedding of `utils::urn_to_ref`: split at the first `urn:`,
base32-decode the suffix, and keep the bytes exactly when the
`[u8; 32]` conversion succeeds. -/
def urn_to_ref (urn : String) : Option (List Nat) :=
  match splitOnceTail "urn:".data urn.data with
  | some suffixChars =>
    match b32Decode suffixChars with
    | some bytes => if bytes.length = 32 then some bytes else none
    | none => none
  | none => none

/-- Embedding of `utils::ref_to_urn`. -/
def ref_to_urn (reference : List Nat) : String :=
  "urn:" ++ String.mk (b32Encode reference)

/-- The RocksDB store as an association list from references to block
bytes; `put` overwrites the value stored under an existing key. -/
def dbWrite : List (List Nat × List Nat) → List Nat → List Nat → List (List Nat × List Nat)
  | [], r, b => [(r, b)]
  | (r0, b0) :: rest, r, b =>
    if r0 = r then (r, b) :: rest else (r0, b0) :: dbWrite rest r b

/-- Embedding of `Db::write_block`: persist the bytes under the
reference key and report the byte count. -/
def write_block (store : List (List Nat × List Nat)) (reference : List Nat)
    (block : List Nat) : Nat × List (List Nat × List Nat) :=
  (block.length, dbWrite store reference block)

/-- Embedding of `Db::read_block`. -/
def read_block : List (List Nat × List Nat) → List Nat → Option (List Nat)
  | [], _ => none
  | (r0, b0) :: rest, r => if r0 = r then some b0 else read_block rest r

/-- Wire byte for a block size (spec 3): 0 for 1 KiB, 1 for 32 KiB. -/
def blockSizeByte (bs : Nat) : Nat := if bs = 1024 then 0 else 1

/-- Modelled from the spec: `ReadCapability::to_urn` (spec 3):
`urn:eris:` followed by the unpadded base32 encoding of the block-size
byte, the level byte, the reference and the key. -/
def capToUrn (cap : ReadCapability) : String :=
  "urn:eris:" ++ String.mk (b32Encode
    (blockSizeByte cap.blockSize :: cap.level :: (cap.rootRef ++ cap.rootKey)))

/-- Modelled from the spec: `ReadCapability::from_urn` (spec 4.3):
reject any string not starting with `urn:eris:`, base32-decode the
rest, reject any decoded length other than 66, and read block size,
level, reference and key in order. -/
def ReadCapability.fromUrn (s : String) : Option ReadCapability :=
  if ("urn:eris:".data).isPrefixOf s.data then
    match b32Decode (s.data.drop 9) with
    | some bytes =>
      if bytes.length = 66 then
        let b0 := bytes.getD 0 0
        let lv := bytes.getD 1 0
        if b0 = 0 then
          some { blockSize := 1024, level := lv,
                 rootRef := (bytes.drop 2).take 32, rootKey := bytes.drop 34 }
        else if b0 = 1 then
          some { blockSize := 32768, level := lv,
                 rootRef := (bytes.drop 2).take 32, rootKey := bytes.drop 34 }
        else none
      else none
    | none => none
  else none

/-- The `ApiState` of `api.rs`, restricted to the fields the embedded
handlers consult: the bearer token, the ChaCha20 RNG state (an opaque
value advanced by `Oracles.rngFill`) and the shared RocksDB handle.
The struct derives `Clone` in Rust; axum hands every handler a clone,
so the RNG state is copied per request while the store handle keeps
pointing at the shared database. -/
structure ApiState where
  auth : String
  rng : Nat
  store : List (List Nat × List Nat)
deriving DecidableEq

/-- The request body cases of the `Content` extractor of `api.rs`:
`json` carries the `serde_json` serialization of the parsed value
(what `json.to_string()` yields in the handler) and `file` carries the
bytes of the first multipart field, or `none` when no field can be
read. -/
inductive ContentM where
  | json (bytes : List Nat)
  | file (field0 : Option (List Nat))

/-- Result of the upload handler: status code, response body and the
server state as it stands after the request (writes to the shared
store persist; the cloned RNG state does not). -/
structure R2NResult where
  status : Nat
  body : String
  state : ApiState
deriving DecidableEq

/-- Persist every block an encoder emitted, in emission order. -/
def writeAll (store : List (List Nat × List Nat)) :
    List BlockWithReference → List (List Nat × List Nat)
  | [] => store
  | b :: rest => writeAll (dbWrite store b.reference b.block) rest

/-- Convergence secret a request draws: the handler clones the server
state and calls `fill_bytes` on the cloned RNG. -/
def drawKey (E : Oracles) (s : ApiState) : List Nat := (E.rngFill s.rng).1

/-- Block size the JSON upload path selects (`api.rs` lines 135-139). -/
def jsonBlockSize (bytes : List Nat) : Nat := if bytes.length < 1000 then 1024 else 32768

/-- Embedding of `api::resource_to_name`.  The handler runs on a clone
of the server state: `fill_bytes` advances only the cloned RNG, so the
returned server state keeps the original RNG value, while the blocks
written through the shared store handle persist.  JSON bodies under
1000 serialized bytes are encoded with 1 KiB blocks, larger ones with
32 KiB blocks; multipart files always use 1 KiB; a successful encode
answers `201 Created` with the capability URN. -/
def resource_to_name (E : Oracles) (state : ApiState) (body : ContentM) : R2NResult :=
  match body with
  | ContentM.json bytes =>
    let key := drawKey E state
    let r := encode E bytes key (jsonBlockSize bytes)
    { status := 201, body := capToUrn r.1,
      state := { state with store := writeAll state.store r.2 } }
  | ContentM.file none =>
    { status := 422, body := "Failed to read file.", state := state }
  | ContentM.file (some bytes) =>
    let key := drawKey E state
    let r := encode E bytes key 1024
    { status := 201, body := capToUrn r.1,
      state := { state with store := writeAll state.store r.2 } }

/-- Response bodies of the download path: a JSON document, raw bytes,
or a plain message. -/
inductive RespBody where
  | jsonVal (bytes : List Nat)
  | raw (bytes : List Nat)
  | msg (s : String)
deriving DecidableEq

/-- The `read_block` closure of `api::name_to_resource`: consult the
local store first and fall back to the verifying peer fetch on a
miss; any failure collapses to `none` for the decoder. -/
def resolverOf (E : Oracles) (s : ApiState) (env : NetEnv) (r : List Nat) :
    Option (List Nat) :=
  match read_block s.store r with
  | some b => some b
  | none =>
    match fetch_block E env r true with
    | Except.ok b => some b
    | Except.error _ => none

/-- Embedding of `api::name_to_resource`: parse the query string as a
read capability and decode, shaping the response by the exact value of
the `Accept` header; otherwise parse it as a bare reference and return
the raw block; otherwise answer 422. -/
def name_to_resource (E : Oracles) (s : ApiState) (env : NetEnv)
    (accept : Option String) (query : String) : Nat × RespBody :=
  match ReadCapability.fromUrn query with
  | some cap =>
    match decode E (resolverOf E s env) cap with
    | some buf =>
      match accept with
      | some a =>
        if a = "application/json" then
          match E.parseJson buf with
          | some j => (200, RespBody.jsonVal j)
          | none => (422, RespBody.msg "Entity is not JSON")
        else if a = "application/octet-stream" then (200, RespBody.raw buf)
        else (404, RespBody.msg "Failed to fetch capability.")
      | none => (404, RespBody.msg "Failed to fetch capability.")
    | none => (404, RespBody.msg "Failed to dereference capability.")
  | none =>
    match urn_to_ref query with
    | some r =>
      match resolverOf E s env r with
      | some block => (200, RespBody.raw block)
      | none => (404, RespBody.msg "Failed to fetch block.")
    | none => (422, RespBody.msg "Invalid capability.")

/-- The `GET /uri-res/N2R` endpoint including the `DynamicQuery`
extractor (`api.rs` lines 91-107): a request with no query string at
all is rejected with `404 Not Found` before the handler body runs. -/
def n2rEndpoint (E : Oracles) (s : ApiState) (env : NetEnv)
    (accept : Option String) : Option String → Nat × RespBody
  | none => (404, RespBody.msg "")
  | some query => name_to_resource E s env accept query

/-- A request as the `authenticate` middleware of `main.rs` sees it:
the URI it compares against `/content`, and the `Authorization`
header when present and readable. -/
structure ReqM where
  uri : String
  authHeader : Option String

/-- Embedding of `main::authenticate`: requests whose URI is not
`/content` or `/content/` pass straight to the inner service; for the
two `/content` URIs the `Authorization` header must equal the
configured token (`subtle::ConstantTimeEq` on the byte strings, which
the model renders as equality) or the middleware answers 401. -/
def authenticate (auth : String) (req : ReqM) (next : ReqM → Nat × RespBody) :
    Nat × RespBody :=
  if ¬(req.uri = "/content" ∨ req.uri = "/content/") then next req
  else
    match req.authHeader with
    | some h => if h = auth then next req else (401, RespBody.msg "")
    | none => (401, RespBody.msg "")

/-- Concrete oracle instance used to evaluate the theorems on closed
inputs: the hash tags a block with its length, key derivation and the
keystream are constant, the RNG emits a zero key and steps its state,
and nothing parses as JSON. -/
def Ew : Oracles where
  hash := fun b => (b.length % 256 + 1) :: List.replicate 31 0
  kdf := fun _ _ => List.replicate 32 0
  ks := fun _ _ => 0
  rngFill := fun s => (List.replicate 32 0, s + 1)
  parseJson := fun _ => none

/-- Concrete convergence secret. -/
def sw : List Nat := List.replicate 32 0

/-- Concrete network environment in which the first candidate peer
fails with a transport error and the second would serve a correct
block. -/
def env4 : NetEnv where
  bootstrapped := true
  getPeers := fun _ _ => [[0, 1]]
  http := fun p _ => if p = 0 then Except.error "connection refused" else Except.ok [7]

/-- Concrete network environment in which the single candidate peer
always serves a block that fails verification. -/
def env5 : NetEnv where
  bootstrapped := true
  getPeers := fun _ _ => [[0]]
  http := fun _ _ => Except.ok [9]

/-- Concrete network environment whose DHT never bootstrapped. -/
def env5b : NetEnv where
  bootstrapped := false
  getPeers := fun _ _ => []
  http := fun _ _ => Except.error "unreachable"

/-- Concrete reference no body hashes to under `Ew`. -/
def ref5 : List Nat := List.replicate 32 0

/-- Concrete reference equal to the `Ew`-hash of the body `[7]`. -/
def ref4 : List Nat := 2 :: List.replicate 31 0

/-- Concrete network environment whose single candidate peer serves a
block that verifies against `ref4`. -/
def env6 : NetEnv where
  bootstrapped := true
  getPeers := fun _ _ => [[0]]
  http := fun _ _ => Except.ok [7]

/-- Concrete read capability used to evaluate the download path. -/
def cap7 : ReadCapability where
  blockSize := 1024
  level := 0
  rootRef := List.replicate 32 0
  rootKey := List.replicate 32 0

/-- Concrete server state with an empty store. -/
def s7 : ApiState where
  auth := "secret-token"
  rng := 0
  store := []

/-- An RK-pair is well formed (32-byte reference and key, reference
not the terminator) and decodes to the given content at the given
level through the given resolver. -/
def decodesTo (E : Oracles) (resolve : List Nat → Option (List Nat)) (level : Nat)
    (p : List Nat × List Nat) (c : List Nat) : Prop :=
  p.1.length = 32 ∧ p.2.length = 32 ∧ p.1 ≠ List.replicate 32 0 ∧
  decodeTree E resolve level p = some c

theorem encBytes_length (E : Oracles) (key : List Nat) :
    ∀ (i : Nat) (l : List Nat), (encBytes E key i l).length = l.length := by
  intro i l
  induction l generalizing i with
  | nil => rfl
  | cons b rest ih => simp [encBytes, ih]

theorem encBytes_encBytes (E : Oracles) (key : List Nat) :
    ∀ (i : Nat) (l : List Nat), encBytes E key i (encBytes E key i l) = l := by
  intro i l
  induction l generalizing i with
  | nil => rfl
  | cons b rest ih => simp [encBytes, ih, Nat.xor_cancel_right]

theorem chunkPad_ne_nil (bs : Nat) (x : List Nat) : chunkPad bs x ≠ [] := by
  rw [chunkPad]
  split <;> simp

theorem chunkPad_flatten (bs : Nat) (x : List Nat) :
    ∃ n, (chunkPad bs x).flatten = x ++ 128 :: List.replicate n 0 := by
  suffices H : ∀ (m : Nat) (y : List Nat), y.length ≤ m →
      ∃ n, (chunkPad bs y).flatten = y ++ 128 :: List.replicate n 0 from
    H x.length x le_rfl
  intro m
  induction m with
  | zero =>
    intro y hy
    rw [chunkPad]
    rw [dif_neg (by omega)]
    exact ⟨bs - y.length - 1, by simp⟩
  | succ m ih =>
    intro y hy
    rw [chunkPad]
    split
    · rename_i h
      obtain ⟨n, hn⟩ := ih (y.drop bs) (by simp; omega)
      refine ⟨n, ?_⟩
      simp only [List.flatten_cons, hn, ← List.append_assoc, List.take_append_drop]
    · exact ⟨bs - y.length - 1, by simp⟩

theorem dropWhile_zeros_append (n : Nat) (l : List Nat) :
    List.dropWhile (fun b => b == 0) (List.replicate n 0 ++ l) =
      List.dropWhile (fun b => b == 0) l := by
  induction n with
  | zero => simp
  | succ n ih => simp [List.replicate_succ, ih]

theorem unpad_pad (x : List Nat) (n : Nat) :
    unpad (x ++ 128 :: List.replicate n 0) = some x := by
  unfold unpad
  rw [List.reverse_append, List.reverse_cons, List.reverse_replicate, List.append_assoc,
    dropWhile_zeros_append]
  simp [List.dropWhile_cons]

theorem chunksOf_flatten (n : Nat) (l : List α) : (chunksOf n l).flatten = l := by
  suffices H : ∀ (m : Nat) (y : List α), y.length ≤ m → (chunksOf n y).flatten = y from
    H l.length l le_rfl
  intro m
  induction m with
  | zero =>
    intro y hy
    rw [chunksOf, dif_neg (by omega)]
    simp
  | succ m ih =>
    intro y hy
    rw [chunksOf]
    split
    · rename_i h
      rw [List.flatten_cons, ih (y.drop n) (by simp; omega), List.take_append_drop]
    · simp

theorem chunksOf_ne_nil (n : Nat) (l : List α) : chunksOf n l ≠ [] := by
  rw [chunksOf]
  split <;> simp

theorem chunksOf_length_lt (n : Nat) (l : List α) (hn : 2 ≤ n) (hl : 2 ≤ l.length) :
    (chunksOf n l).length < l.length := by
  suffices H : ∀ (m : Nat) (y : List α), y.length ≤ m → 2 ≤ y.length →
      (chunksOf n y).length < y.length from H l.length l le_rfl hl
  intro m
  induction m with
  | zero => intro y hy h2; omega
  | succ m ih =>
    intro y hy h2
    rw [chunksOf]
    split
    · rename_i h
      by_cases hd : 2 ≤ (y.drop n).length
      · have := ih (y.drop n) (by simp; omega) hd
        simp only [List.length_cons, List.length_drop] at *
        omega
      · rw [chunksOf]
        rw [dif_neg (by simp at hd ⊢; omega)]
        simp only [List.length_cons, List.length_nil] at *
        omega
    · simp only [List.length_cons, List.length_nil]
      omega

theorem chunksOf_mem_length (n : Nat) (l : List α) (hn : 0 < n) :
    ∀ g ∈ chunksOf n l, g.length ≤ n := by
  suffices H : ∀ (m : Nat) (y : List α), y.length ≤ m →
      ∀ g ∈ chunksOf n y, g.length ≤ n from H l.length l le_rfl
  intro m
  induction m with
  | zero =>
    intro y hy g hg
    rw [chunksOf, dif_neg (by omega)] at hg
    simp at hg
    subst hg
    omega
  | succ m ih =>
    intro y hy g hg
    rw [chunksOf] at hg
    split at hg
    · rename_i h
      rcases List.mem_cons.mp hg with rfl | hg'
      · have := List.length_take_le n y
        omega
      · exact ih (y.drop n) (by simp; omega) g hg'
    · rename_i h
      simp at hg
      subst hg
      omega

theorem serializePairs_nil (bs : Nat) : serializePairs bs [] = List.replicate bs 0 := by
  simp [serializePairs]

theorem serializePairs_cons (bs : Nat) (p : List Nat × List Nat)
    (g : List (List Nat × List Nat)) :
    serializePairs bs (p :: g) = p.1 ++ (p.2 ++ serializePairs (bs - 64) g) := by
  have harg : bs - 64 * (g.length + 1) = bs - 64 - 64 * g.length := by omega
  simp [serializePairs, List.flatten_cons, List.append_assoc, harg]

theorem serializePairs_length (bs : Nat) (g : List (List Nat × List Nat))
    (hg : ∀ p ∈ g, p.1.length = 32 ∧ p.2.length = 32) :
    (serializePairs bs g).length = 64 * g.length + (bs - 64 * g.length) := by
  induction g generalizing bs with
  | nil => simp [serializePairs_nil]
  | cons p g ih =>
    have hp := hg p (List.mem_cons_self p g)
    have ih2 := ih (bs - 64) (fun q hq => hg q (List.mem_cons_of_mem p hq))
    rw [serializePairs_cons]
    simp only [List.length_append, hp.1, hp.2, ih2, List.length_cons]
    omega

theorem parsePairs_replicate_zero (bs : Nat) : parsePairs (List.replicate bs 0) = [] := by
  rw [parsePairs]
  split
  · rename_i h
    rw [if_pos]
    simp only [List.length_replicate] at h
    simp [List.take_replicate, Nat.min_eq_left (by omega : 32 ≤ bs)]
  · rfl

theorem parsePairs_serializePairs (g : List (List Nat × List Nat)) (bs : Nat)
    (hg : ∀ p ∈ g, p.1.length = 32 ∧ p.2.length = 32 ∧ p.1 ≠ List.replicate 32 0)
    (hbs : 64 * g.length ≤ bs) :
    parsePairs (serializePairs bs g) = g := by
  induction g generalizing bs with
  | nil => simp [serializePairs_nil, parsePairs_replicate_zero]
  | cons p g ih =>
    obtain ⟨h1, h2, h3⟩ := hg p (List.mem_cons_self p g)
    have htail : (serializePairs (bs - 64) g).length = 64 * g.length + (bs - 64 - 64 * g.length) :=
      serializePairs_length (bs - 64) g (fun q hq => ⟨(hg q (List.mem_cons_of_mem p hq)).1,
        (hg q (List.mem_cons_of_mem p hq)).2.1⟩)
    rw [serializePairs_cons, parsePairs]
    rw [dif_pos (by simp [h1, h2, htail]; omega)]
    have htake : (p.1 ++ (p.2 ++ serializePairs (bs - 64) g)).take 32 = p.1 :=
      List.take_left' h1
    rw [htake, if_neg h3]
    have hdrop32 : (p.1 ++ (p.2 ++ serializePairs (bs - 64) g)).drop 32 =
        p.2 ++ serializePairs (bs - 64) g := List.drop_left' h1
    have hdrop64 : (p.1 ++ (p.2 ++ serializePairs (bs - 64) g)).drop 64 =
        serializePairs (bs - 64) g := by
      have : (64 : Nat) = 32 + 32 := by omega
      rw [this, ← List.drop_drop, hdrop32, List.drop_left' h2]
    rw [hdrop32, List.take_left' h2, hdrop64]
    rw [ih (bs - 64) (fun q hq => hg q (List.mem_cons_of_mem p hq)) (by simp at hbs ⊢; omega)]

theorem chunksOf_pos {α : Type} {n : Nat} {l : List α} (h : 0 < n ∧ n < l.length) :
    chunksOf n l = l.take n :: chunksOf n (l.drop n) := by
  rw [chunksOf]
  rw [dif_pos h]

theorem chunksOf_neg {α : Type} {n : Nat} {l : List α} (h : ¬(0 < n ∧ n < l.length)) :
    chunksOf n l = [l] := by
  rw [chunksOf]
  rw [dif_neg h]

theorem forall₂_chunksOf {α β : Type} {R : α → β → Prop} (n : Nat) (l1 : List α) (l2 : List β)
    (h : List.Forall₂ R l1 l2) :
    List.Forall₂ (List.Forall₂ R) (chunksOf n l1) (chunksOf n l2) := by
  suffices H : ∀ (m : Nat) (y1 : List α) (y2 : List β), y1.length ≤ m → List.Forall₂ R y1 y2 →
      List.Forall₂ (List.Forall₂ R) (chunksOf n y1) (chunksOf n y2) from H l1.length l1 l2 le_rfl h
  intro m
  induction m with
  | zero =>
    intro y1 y2 hy h
    rw [chunksOf_neg (by omega), chunksOf_neg (l := y2) (by rw [← h.length_eq]; omega)]
    exact List.Forall₂.cons h List.Forall₂.nil
  | succ m ih =>
    intro y1 y2 hy h
    by_cases hc : 0 < n ∧ n < y1.length
    · rw [chunksOf_pos hc, chunksOf_pos (l := y2) (by rw [← h.length_eq]; exact hc)]
      exact List.Forall₂.cons (List.forall₂_take n h)
        (ih (y1.drop n) (y2.drop n) (by simp; omega) (List.forall₂_drop n h))
    · rw [chunksOf_neg hc, chunksOf_neg (l := y2) (by rw [← h.length_eq]; exact hc)]
      exact List.Forall₂.cons h List.Forall₂.nil

theorem forall₂_map_map {α β γ δ : Type} {R : α → β → Prop} {S : γ → δ → Prop}
    (f : α → γ) (g : β → δ) (hfg : ∀ a b, R a b → S (f a) (g b)) :
    ∀ {l1 : List α} {l2 : List β}, List.Forall₂ R l1 l2 →
      List.Forall₂ S (l1.map f) (l2.map g)
  | _, _, List.Forall₂.nil => List.Forall₂.nil
  | _, _, List.Forall₂.cons h t =>
    List.Forall₂.cons (hfg _ _ h) (forall₂_map_map f g hfg t)

theorem flatten_map_flatten {α : Type} (l : List (List (List α))) :
    (l.map List.flatten).flatten = l.flatten.flatten := by
  induction l with
  | nil => rfl
  | cons c l ih => simp [ih]

theorem forall₂_to_left {α β : Type} {R : α → β → Prop} :
    ∀ {l1 : List α} {l2 : List β}, List.Forall₂ R l1 l2 → ∀ a ∈ l1, ∃ b, R a b
  | _, _, List.Forall₂.nil => by intro a ha; cases ha
  | _, _, List.Forall₂.cons h t => by
    intro a ha
    rcases List.mem_cons.mp ha with rfl | ha'
    · exact ⟨_, h⟩
    · exact forall₂_to_left t a ha'

theorem forall₂_map_self {α γ : Type} {R : γ → α → Prop} (f : α → γ) :
    ∀ (l : List α), (∀ a ∈ l, R (f a) a) → List.Forall₂ R (l.map f) l
  | [], _ => List.Forall₂.nil
  | a :: l, h => List.Forall₂.cons (h a (List.mem_cons_self a l))
      (forall₂_map_self f l (fun b hb => h b (List.mem_cons_of_mem a hb)))

theorem decodeTree_zero_some (E : Oracles) (resolve : List Nat → Option (List Nat))
    (r k ct : List Nat) (hres : resolve r = some ct) (hh : E.hash ct = r) :
    decodeTree E resolve 0 (r, k) = some (encBytes E k 0 ct) := by
  rw [decodeTree, hres]
  simp [hh]

theorem decodeTree_succ_some (E : Oracles) (resolve : List Nat → Option (List Nat))
    (lv : Nat) (r k ct : List Nat) (hres : resolve r = some ct) (hh : E.hash ct = r) :
    decodeTree E resolve (lv + 1) (r, k) =
      decodeList E resolve lv (parsePairs (encBytes E k 0 ct)) := by
  rw [decodeTree, hres]
  simp [hh]

theorem decodeList_of_forall₂ (E : Oracles) (resolve : List Nat → Option (List Nat))
    (lv : Nat) : ∀ {g : List (List Nat × List Nat)} {cg : List (List Nat)},
    List.Forall₂ (decodesTo E resolve lv) g cg →
    decodeList E resolve lv g = some cg.flatten
  | _, _, List.Forall₂.nil => by rw [decodeList]; rfl
  | _, _, List.Forall₂.cons h t => by
    rw [decodeList, h.2.2.2, decodeList_of_forall₂ E resolve lv t]
    simp

theorem node_decode (E : Oracles) (secret : List Nat) (bs : Nat)
    (resolve : List Nat → Option (List Nat)) (level : Nat)
    (hlen : ∀ b, (E.hash b).length = 32)
    (hkdf : ∀ pt, (E.kdf pt secret).length = 32)
    (hnz : ∀ b, E.hash b ≠ List.replicate 32 0)
    (g : List (List Nat × List Nat)) (cg : List (List Nat))
    (hg : List.Forall₂ (decodesTo E resolve level) g cg)
    (hglen : 64 * g.length ≤ bs)
    (hres : resolve (mkBlock E secret (serializePairs bs g)).reference =
      some (mkBlock E secret (serializePairs bs g)).block) :
    decodesTo E resolve (level + 1) (pairOf (mkBlock E secret (serializePairs bs g)))
      cg.flatten := by
  refine ⟨hlen _, hkdf _, hnz _, ?_⟩
  have hparse : parsePairs (serializePairs bs g) = g :=
    parsePairs_serializePairs g bs
      (fun p hp => by
        obtain ⟨c, hc⟩ := forall₂_to_left hg p hp
        exact ⟨hc.1, hc.2.1, hc.2.2.1⟩)
      hglen
  show decodeTree E resolve (level + 1) (_, _) = _
  rw [decodeTree_succ_some E resolve level _ _ _ hres rfl]
  simp only [mkBlock]
  rw [encBytes_encBytes, hparse]
  exact decodeList_of_forall₂ E resolve level hg

theorem forall₂_nodes (E : Oracles) (secret : List Nat) (bs : Nat)
    (resolve : List Nat → Option (List Nat)) (level : Nat)
    (hlen : ∀ b, (E.hash b).length = 32)
    (hkdf : ∀ pt, (E.kdf pt secret).length = 32)
    (hnz : ∀ b, E.hash b ≠ List.replicate 32 0) :
    ∀ {gr : List (List (List Nat × List Nat))} {cgr : List (List (List Nat))},
    List.Forall₂ (List.Forall₂ (decodesTo E resolve level)) gr cgr →
    (∀ g ∈ gr, 64 * g.length ≤ bs) →
    (∀ g ∈ gr, resolve (mkBlock E secret (serializePairs bs g)).reference =
      some (mkBlock E secret (serializePairs bs g)).block) →
    List.Forall₂ (decodesTo E resolve (level + 1))
      (gr.map (fun g => pairOf (mkBlock E secret (serializePairs bs g))))
      (cgr.map List.flatten)
  | _, _, List.Forall₂.nil, _, _ => List.Forall₂.nil
  | g :: gr, cg :: _cgr, List.Forall₂.cons h t, hglen, hres =>
    List.Forall₂.cons
      (node_decode E secret bs resolve level hlen hkdf hnz g cg h
        (hglen g (List.mem_cons_self g gr)) (hres g (List.mem_cons_self g gr)))
      (forall₂_nodes E secret bs resolve level hlen hkdf hnz t
        (fun q hq => hglen q (List.mem_cons_of_mem g hq))
        (fun q hq => hres q (List.mem_cons_of_mem g hq)))

theorem buildTree_single (E : Oracles) (secret : List Nat) (bs fuel : Nat)
    (p : List Nat × List Nat) (level : Nat) (acc : List BlockWithReference) :
    buildTree E secret bs fuel [p] level acc = (p, level, acc) := by
  cases fuel <;> rfl

theorem buildTree_step (E : Oracles) (secret : List Nat) (bs f : Nat)
    (p1 p2 : List Nat × List Nat) (rest : List (List Nat × List Nat)) (level : Nat)
    (acc : List BlockWithReference) :
    buildTree E secret bs (f + 1) (p1 :: p2 :: rest) level acc =
      buildTree E secret bs f
        (((chunksOf (bs / 64) (p1 :: p2 :: rest)).map
          (fun g => mkBlock E secret (serializePairs bs g))).map pairOf)
        (level + 1)
        (acc ++ (chunksOf (bs / 64) (p1 :: p2 :: rest)).map
          (fun g => mkBlock E secret (serializePairs bs g))) := rfl

theorem buildTree_acc (E : Oracles) (secret : List Nat) (bs : Nat) :
    ∀ (fuel : Nat) (pairs : List (List Nat × List Nat)) (level : Nat)
      (acc : List BlockWithReference),
    ∃ rest, (buildTree E secret bs fuel pairs level acc).2.2 = acc ++ rest := by
  intro fuel
  induction fuel with
  | zero =>
    intro pairs level acc
    match pairs with
    | [] => exact ⟨[], by simp [buildTree]⟩
    | [p] => exact ⟨[], by simp [buildTree_single]⟩
    | p1 :: p2 :: rest => exact ⟨[], by simp [buildTree]⟩
  | succ f ih =>
    intro pairs level acc
    match pairs with
    | [] => exact ⟨[], by simp [buildTree]⟩
    | [p] => exact ⟨[], by simp [buildTree_single]⟩
    | p1 :: p2 :: rest =>
      rw [buildTree_step]
      obtain ⟨r2, h2⟩ := ih
        (((chunksOf (bs / 64) (p1 :: p2 :: rest)).map
          (fun g => mkBlock E secret (serializePairs bs g))).map pairOf)
        (level + 1)
        (acc ++ (chunksOf (bs / 64) (p1 :: p2 :: rest)).map
          (fun g => mkBlock E secret (serializePairs bs g)))
      refine ⟨(chunksOf (bs / 64) (p1 :: p2 :: rest)).map
        (fun g => mkBlock E secret (serializePairs bs g)) ++ r2, ?_⟩
      rw [h2, List.append_assoc]

theorem storeOf_mem : ∀ (l : List BlockWithReference) (b : BlockWithReference), b ∈ l →
    (∀ b1 ∈ l, ∀ b2 ∈ l, b1.reference = b2.reference → b1.block = b2.block) →
    storeOf l b.reference = some b.block := by
  intro l
  induction l with
  | nil => intro b hb _; cases hb
  | cons b0 rest ih =>
    intro b hb hinj
    by_cases hr : b0.reference = b.reference
    · rw [storeOf, if_pos hr]
      exact congrArg some
        (hinj b0 (List.mem_cons_self b0 rest) b hb hr)
    · rw [storeOf, if_neg hr]
      rcases List.mem_cons.mp hb with rfl | hb'
      · exact absurd rfl hr
      · exact ih b hb' (fun b1 h1 b2 h2 =>
          hinj b1 (List.mem_cons_of_mem b0 h1) b2 (List.mem_cons_of_mem b0 h2))

theorem buildTree_decode (E : Oracles) (secret : List Nat) (bs : Nat)
    (resolve : List Nat → Option (List Nat))
    (hlen : ∀ b, (E.hash b).length = 32)
    (hkdf : ∀ pt, (E.kdf pt secret).length = 32)
    (hnz : ∀ b, E.hash b ≠ List.replicate 32 0)
    (harity : 2 ≤ bs / 64) :
    ∀ (fuel : Nat) (pairs : List (List Nat × List Nat)) (level : Nat)
      (acc : List BlockWithReference) (contents : List (List Nat)),
    pairs.length ≤ fuel + 1 →
    List.Forall₂ (decodesTo E resolve level) pairs contents →
    (∀ b ∈ (buildTree E secret bs fuel pairs level acc).2.2,
      resolve b.reference = some b.block) →
    pairs ≠ [] →
    decodeTree E resolve (buildTree E secret bs fuel pairs level acc).2.1
      (buildTree E secret bs fuel pairs level acc).1 = some contents.flatten := by
  intro fuel
  induction fuel with
  | zero =>
    intro pairs level acc contents hfl hf hres hne
    match pairs, hf with
    | [], _ => exact absurd rfl hne
    | [p], List.Forall₂.cons hp t =>
      cases t
      rw [buildTree_single]
      simp only [List.flatten_cons, List.flatten_nil, List.append_nil]
      exact hp.2.2.2
    | p1 :: p2 :: rest, _ => simp at hfl
  | succ f ih =>
    intro pairs level acc contents hfl hf hres hne
    match pairs, hf with
    | [], _ => exact absurd rfl hne
    | [p], List.Forall₂.cons hp t =>
      cases t
      rw [buildTree_single]
      simp only [List.flatten_cons, List.flatten_nil, List.append_nil]
      exact hp.2.2.2
    | p1 :: p2 :: rest, hf =>
      rw [buildTree_step] at hres ⊢
      have hlt : (chunksOf (bs / 64) (p1 :: p2 :: rest)).length <
          (p1 :: p2 :: rest).length :=
        chunksOf_length_lt (bs / 64) (p1 :: p2 :: rest) harity (by simp)
      have hmono := buildTree_acc E secret bs f
        (((chunksOf (bs / 64) (p1 :: p2 :: rest)).map
          (fun g => mkBlock E secret (serializePairs bs g))).map pairOf)
        (level + 1)
        (acc ++ (chunksOf (bs / 64) (p1 :: p2 :: rest)).map
          (fun g => mkBlock E secret (serializePairs bs g)))
      obtain ⟨tailb, htailb⟩ := hmono
      have hresnodes : ∀ g ∈ chunksOf (bs / 64) (p1 :: p2 :: rest),
          resolve (mkBlock E secret (serializePairs bs g)).reference =
            some (mkBlock E secret (serializePairs bs g)).block := by
        intro g hg
        apply hres
        rw [htailb]
        exact List.mem_append_left _ (List.mem_append_right _ (List.mem_map_of_mem _ hg))
      have hnew : List.Forall₂ (decodesTo E resolve (level + 1))
          (((chunksOf (bs / 64) (p1 :: p2 :: rest)).map
            (fun g => mkBlock E secret (serializePairs bs g))).map pairOf)
          ((chunksOf (bs / 64) contents).map List.flatten) := by
        rw [List.map_map]
        exact forall₂_nodes E secret bs resolve level hlen hkdf hnz
          (forall₂_chunksOf (bs / 64) _ _ hf)
          (fun g hg => by
            have := chunksOf_mem_length (bs / 64) (p1 :: p2 :: rest) (by omega) g hg
            have h2 : 64 * (bs / 64) ≤ bs := by
              have := Nat.div_mul_le_self bs 64
              omega
            omega)
          hresnodes
      have := ih _ (level + 1) _ ((chunksOf (bs / 64) contents).map List.flatten)
        (by
          simp only [List.length_map]
          simp only [List.length_cons] at hfl hlt
          omega)
        hnew hres
        (by
          simp only [ne_eq, List.map_eq_nil_iff]
          exact chunksOf_ne_nil (bs / 64) (p1 :: p2 :: rest))
      rw [this]
      rw [flatten_map_flatten, chunksOf_flatten]

/-- C1: Round-trip: for every byte string `x`, every 32-byte
convergence secret `k`, and every block size `s` in 1 KiB or 32 KiB,
decoding the read capability produced by `encode x k s` with a
resolver that returns exactly the blocks the encoder sink received
yields exactly `x`.  The cryptographic primitives are parameters; the
hypotheses state that the hash yields 32 bytes, never the all-zero
terminator reference, and does not collide on the emitted blocks, and
that derived keys are 32 bytes. -/
theorem C1_round_trip (E : Oracles) (x secret : List Nat) (bs : Nat)
    (hbs : bs = 1024 ∨ bs = 32768)
    (hlen : ∀ b, (E.hash b).length = 32)
    (hkdf : ∀ pt, (E.kdf pt secret).length = 32)
    (hnz : ∀ b, E.hash b ≠ List.replicate 32 0)
    (hinj : ∀ b1 ∈ (encode E x secret bs).2, ∀ b2 ∈ (encode E x secret bs).2,
      b1.reference = b2.reference → b1.block = b2.block) :
    decode E (storeOf (encode E x secret bs).2) (encode E x secret bs).1 = some x := by
  have harity : 2 ≤ bs / 64 := by rcases hbs with rfl | rfl <;> norm_num
  have hres : ∀ b ∈ (encode E x secret bs).2,
      storeOf (encode E x secret bs).2 b.reference = some b.block :=
    fun b hb => storeOf_mem _ b hb hinj
  obtain ⟨restb, hrb⟩ := buildTree_acc E secret bs
    ((chunkPad bs x).map (mkBlock E secret)).length
    (((chunkPad bs x).map (mkBlock E secret)).map pairOf) 0
    ((chunkPad bs x).map (mkBlock E secret))
  have hleafmem : ∀ c ∈ chunkPad bs x, mkBlock E secret c ∈ (encode E x secret bs).2 := by
    intro c hc
    show mkBlock E secret c ∈
      (buildTree E secret bs ((chunkPad bs x).map (mkBlock E secret)).length
        (((chunkPad bs x).map (mkBlock E secret)).map pairOf) 0
        ((chunkPad bs x).map (mkBlock E secret))).2.2
    rw [hrb]
    exact List.mem_append_left _ (List.mem_map_of_mem _ hc)
  have hf : List.Forall₂ (decodesTo E (storeOf (encode E x secret bs).2) 0)
      (((chunkPad bs x).map (mkBlock E secret)).map pairOf) (chunkPad bs x) := by
    rw [List.map_map]
    apply forall₂_map_self
    intro c hc
    refine ⟨hlen _, hkdf _, hnz _, ?_⟩
    have hresc := hres _ (hleafmem c hc)
    show decodeTree E (storeOf (encode E x secret bs).2) 0 (_, _) = some c
    rw [decodeTree_zero_some E (storeOf (encode E x secret bs).2)
      (mkBlock E secret c).reference (mkBlock E secret c).key
      (mkBlock E secret c).block hresc rfl]
    simp only [mkBlock]
    rw [encBytes_encBytes]
  have hmain := buildTree_decode E secret bs (storeOf (encode E x secret bs).2)
    hlen hkdf hnz harity
    ((chunkPad bs x).map (mkBlock E secret)).length
    (((chunkPad bs x).map (mkBlock E secret)).map pairOf) 0
    ((chunkPad bs x).map (mkBlock E secret)) (chunkPad bs x)
    (by simp only [List.length_map]; omega)
    hf
    hres
    (by
      simp only [ne_eq, List.map_eq_nil_iff]
      exact chunkPad_ne_nil bs x)
  obtain ⟨npad, hflat⟩ := chunkPad_flatten bs x
  have hdt : decodeTree E (storeOf (encode E x secret bs).2)
      (encode E x secret bs).1.level
      ((encode E x secret bs).1.rootRef, (encode E x secret bs).1.rootKey) =
      some (chunkPad bs x).flatten := hmain
  simp only [decode]
  rw [hdt, hflat]
  exact unpad_pad x npad

theorem chunkPad_1024_nil : chunkPad 1024 ([] : List Nat) = [128 :: List.replicate 1023 0] := by
  rw [chunkPad]
  rw [dif_neg (by simp)]
  norm_num

/-- C1 witness: the round-trip theorem evaluated at the empty input,
the zero secret and 1 KiB blocks, under the concrete oracle `Ew`. -/
theorem C1_round_trip_witness :
    decode Ew (storeOf (encode Ew [] sw 1024).2) (encode Ew [] sw 1024).1 = some [] := by
  have henc : (encode Ew [] sw 1024).2 = [mkBlock Ew sw (128 :: List.replicate 1023 0)] := by
    simp only [encode, chunkPad_1024_nil, List.map_cons, List.map_nil,
      List.length_cons, List.length_nil, buildTree_single]
  apply C1_round_trip Ew [] sw 1024 (Or.inl rfl)
  · intro b
    simp [Ew]
  · intro pt
    simp [Ew]
  · intro b
    simp [Ew, List.replicate_succ]
  · intro b1 h1 b2 h2 _hrr
    rw [henc] at h1 h2
    simp only [List.mem_singleton] at h1 h2
    rw [h1, h2]

/-- C2: the claim that every POST to `/uri-res/R2N` without a valid
Authorization header is answered 401 before the handler runs is
refuted by the code: the middleware compares the URI against
`/content` and `/content/` only, and the routers actual routes are
`/uri-res/R2N` and `/uri-res/N2R`, so the request passes straight to
the handler with no header at all; the 401 arm is reachable only on
the `/content` URIs, which no route serves. -/
theorem C2_auth_bypass :
    authenticate "secret-token" { uri := "/uri-res/R2N", authHeader := none }
      (fun _ => (201, RespBody.msg "handler ran")) = (201, RespBody.msg "handler ran") ∧
    authenticate "secret-token" { uri := "/uri-res/R2N", authHeader := some "wrong" }
      (fun _ => (201, RespBody.msg "handler ran")) = (201, RespBody.msg "handler ran") ∧
    authenticate "secret-token" { uri := "/content", authHeader := none }
      (fun _ => (201, RespBody.msg "handler ran")) = (401, RespBody.msg "") := by
  refine ⟨?_, ?_, ?_⟩ <;> decide

/-- C3: the handler receives a per-request clone of `ApiState` and
mutates only the clone: no request of any body shape advances the RNG
of the shared server state, and two uploads of the same bytes with the
same content type (JSON or multipart file) starting from the same
server state draw identical convergence secrets and produce identical
capabilities, statuses and block sets. -/
theorem C3_rng_clone (E : Oracles) (s0 : ApiState) (bytes fileBytes : List Nat) :
    (∀ body : ContentM, (resource_to_name E s0 body).state.rng = s0.rng) ∧
    (resource_to_name E s0 (ContentM.json bytes)).state.rng = s0.rng ∧
    (resource_to_name E (resource_to_name E s0 (ContentM.json bytes)).state
        (ContentM.json bytes)).state.rng = s0.rng ∧
    drawKey E (resource_to_name E s0 (ContentM.json bytes)).state = drawKey E s0 ∧
    (resource_to_name E (resource_to_name E s0 (ContentM.json bytes)).state
        (ContentM.json bytes)).body =
      (resource_to_name E s0 (ContentM.json bytes)).body ∧
    (resource_to_name E (resource_to_name E s0 (ContentM.json bytes)).state
        (ContentM.json bytes)).status =
      (resource_to_name E s0 (ContentM.json bytes)).status ∧
    (encode E bytes (drawKey E (resource_to_name E s0 (ContentM.json bytes)).state)
        (jsonBlockSize bytes)).2 =
      (encode E bytes (drawKey E s0) (jsonBlockSize bytes)).2 ∧
    (resource_to_name E (resource_to_name E s0 (ContentM.file (some fileBytes))).state
        (ContentM.file (some fileBytes))).state.rng = s0.rng ∧
    drawKey E (resource_to_name E s0 (ContentM.file (some fileBytes))).state =
      drawKey E s0 ∧
    (resource_to_name E (resource_to_name E s0 (ContentM.file (some fileBytes))).state
        (ContentM.file (some fileBytes))).body =
      (resource_to_name E s0 (ContentM.file (some fileBytes))).body ∧
    (resource_to_name E (resource_to_name E s0 (ContentM.file (some fileBytes))).state
        (ContentM.file (some fileBytes))).status =
      (resource_to_name E s0 (ContentM.file (some fileBytes))).status ∧
    (encode E fileBytes
        (drawKey E (resource_to_name E s0 (ContentM.file (some fileBytes))).state)
        1024).2 =
      (encode E fileBytes (drawKey E s0) 1024).2 := by
  refine ⟨?_, rfl, rfl, rfl, rfl, rfl, rfl, rfl, rfl, rfl, rfl, rfl⟩
  intro body
  cases body with
  | json b => rfl
  | file f => cases f <;> rfl

/-- C6: a JSON body whose serialization is under 1000 bytes is encoded
with 1 KiB blocks and any larger JSON body with 32 KiB blocks, a
multipart file upload is always encoded with 1 KiB blocks, and a
successful encode answers 201 with the capability URN as body. -/
theorem C6_block_size_choice (E : Oracles) (s : ApiState) (bytes fileBytes : List Nat) :
    ((resource_to_name E s (ContentM.json bytes)).status = 201 ∧
     (resource_to_name E s (ContentM.json bytes)).body =
       capToUrn (encode E bytes (drawKey E s) (jsonBlockSize bytes)).1 ∧
     (encode E bytes (drawKey E s) (jsonBlockSize bytes)).1.blockSize =
       (if bytes.length < 1000 then 1024 else 32768)) ∧
    ((resource_to_name E s (ContentM.file (some fileBytes))).status = 201 ∧
     (resource_to_name E s (ContentM.file (some fileBytes))).body =
       capToUrn (encode E fileBytes (drawKey E s) 1024).1 ∧
     (encode E fileBytes (drawKey E s) 1024).1.blockSize = 1024) :=
  ⟨⟨rfl, rfl, rfl⟩, rfl, rfl, rfl⟩

theorem dbWrite_dbWrite (store : List (List Nat × List Nat)) (r b : List Nat) :
    dbWrite (dbWrite store r b) r b = dbWrite store r b := by
  induction store with
  | nil => simp [dbWrite]
  | cons p rest ih =>
    by_cases h : p.1 = r
    · simp [dbWrite, h]
    · simp [dbWrite, h, ih]

theorem read_dbWrite (store : List (List Nat × List Nat)) (r b : List Nat) :
    read_block (dbWrite store r b) r = some b := by
  induction store with
  | nil => simp [dbWrite, read_block]
  | cons p rest ih =>
    by_cases h : p.1 = r
    · simp [dbWrite, h, read_block]
    · simp [dbWrite, h, read_block, ih]

/-- C9: `write_block` returns the length of the written bytes, writing
the same reference and bytes twice leaves the store in the same state
with the second call reporting the same length, and `read_block` after
the write returns exactly the written bytes. -/
theorem C9_store_idempotent (store : List (List Nat × List Nat)) (r b : List Nat) :
    (write_block store r b).1 = b.length ∧
    write_block (write_block store r b).2 r b = (b.length, (write_block store r b).2) ∧
    read_block (write_block store r b).2 r = some b := by
  refine ⟨rfl, ?_, ?_⟩
  · show (b.length, dbWrite (dbWrite store r b) r b) = (b.length, dbWrite store r b)
    rw [dbWrite_dbWrite]
  · exact read_dbWrite store r b

/-- C10: a GET to `/uri-res/N2R` with no query string at all is
rejected with 404 by the `DynamicQuery` extractor, before the handler
body and hence before any store or network access: the response is a
constant independent of the oracles, the server state and the network
environment. -/
theorem C10_no_query_404 (E1 E2 : Oracles) (s1 s2 : ApiState) (env1 env2 : NetEnv)
    (a1 a2 : Option String) :
    n2rEndpoint E1 s1 env1 a1 none = (404, RespBody.msg "") ∧
    n2rEndpoint E1 s1 env1 a1 none = n2rEndpoint E2 s2 env2 a2 none :=
  ⟨rfl, rfl⟩

/-- C4 counterexample: in `env4` peer 0 fails with a transport error
while peer 1 would serve a block verifying against `ref4`, yet
`fetch_block` aborts with the propagated network error instead of
skipping to peer 1 and returning its block: the `?` operator on
`send()?.bytes()?` leaves the loop. -/
theorem C4_network_error_aborts :
    fetch_block Ew env4 ref4 true = Except.error (FetchErr.network "connection refused") ∧
    ∀ b, fetch_block Ew env4 ref4 true ≠ Except.ok b := by
  have h : fetch_block Ew env4 ref4 true =
      Except.error (FetchErr.network "connection refused") := by
    have hb : env4.bootstrapped = true := rfl
    rw [fetch_block, if_pos hb, fetchRounds,
      dif_pos (by norm_num [MAX_PEER_RETRIES])]
    have hs : (env4.getPeers (ref4.take 20) 0).flatten = [0, 1] := rfl
    rw [hs, scanPeers]
    have hh : env4.http 0 ref4 = Except.error "connection refused" := rfl
    rw [hh]
  refine ⟨h, fun b hb => ?_⟩
  rw [h] at hb
  cases hb

/-- C4 (amended): a network error on a candidate peer aborts
`fetch_block` at once, propagating the transport error as a
`FetchErr.network` result: the remaining peers are not tried and the
error is not treated as a verification failure (the result is not
`BlockNotFound`). -/
theorem C4_network_error_propagates (E : Oracles) (env : NetEnv) (reference : List Nat)
    (check : Bool) (p : Nat) (rest : List Nat) (e : String)
    (hboot : env.bootstrapped = true)
    (hflat : (env.getPeers (reference.take 20) 0).flatten = p :: rest)
    (herr : env.http p reference = Except.error e) :
    fetch_block E env reference check = Except.error (FetchErr.network e) := by
  rw [fetch_block, if_pos hboot, fetchRounds,
    dif_pos (by norm_num [MAX_PEER_RETRIES]), hflat, scanPeers, herr]

/-- C4 witness: the amended statement evaluated in `env4`. -/
theorem C4_network_error_witness :
    fetch_block Ew env4 ref4 false = Except.error (FetchErr.network "connection refused") :=
  C4_network_error_propagates Ew env4 ref4 false 0 [1] "connection refused" rfl rfl rfl

theorem scanPeers_ok_hash (E : Oracles) (env : NetEnv) (reference : List Nat) :
    ∀ (l : List Nat) (b : List Nat),
    scanPeers E env reference true l = Except.ok b → E.hash b = reference := by
  intro l
  induction l with
  | nil => intro b h; simp [scanPeers] at h
  | cons p rest ih =>
    intro b h
    rw [scanPeers] at h
    cases hhttp : env.http p reference with
    | error e => rw [hhttp] at h; simp at h
    | ok cand =>
      rw [hhttp] at h
      replace h : (if true = true ∧ E.hash cand ≠ reference then
          scanPeers E env reference true rest else Except.ok cand) = Except.ok b := h
      by_cases hc : true = true ∧ E.hash cand ≠ reference
      · rw [if_pos hc] at h
        exact ih b h
      · rw [if_neg hc] at h
        simp only [Except.ok.injEq] at h
        subst h
        simp at hc
        exact hc

theorem fetchRounds_ok_hash (E : Oracles) (env : NetEnv) (reference : List Nat) :
    ∀ (n tries : Nat) (b : List Nat), MAX_PEER_RETRIES ≤ tries + n →
    fetchRounds E env reference true tries = Except.ok b → E.hash b = reference := by
  intro n
  induction n with
  | zero =>
    intro tries b hle h
    rw [fetchRounds, dif_neg (by omega)] at h
    simp at h
  | succ n ih =>
    intro tries b hle h
    rw [fetchRounds] at h
    split at h
    · cases hsp : scanPeers E env reference true
          ((env.getPeers (reference.take 20) tries).flatten) with
      | ok b2 =>
        rw [hsp] at h
        simp only [Except.ok.injEq] at h
        subst h
        exact scanPeers_ok_hash E env reference _ b2 hsp
      | error eo =>
        cases eo with
        | some e => rw [hsp] at h; simp at h
        | none =>
          rw [hsp] at h
          exact ih (tries + 1) b (by omega) h
    · simp at h

theorem scanPeers_all_bad (E : Oracles) (env : NetEnv) (reference : List Nat) :
    ∀ (l : List Nat),
    (∀ p ∈ l, ∃ body, env.http p reference = Except.ok body ∧ E.hash body ≠ reference) →
    scanPeers E env reference true l = Except.error none := by
  intro l
  induction l with
  | nil => intro _; rw [scanPeers]
  | cons p rest ih =>
    intro hbad
    obtain ⟨body, hb, hne⟩ := hbad p (List.mem_cons_self p rest)
    rw [scanPeers, hb]
    show (if true = true ∧ E.hash body ≠ reference then
      scanPeers E env reference true rest else Except.ok body) = Except.error none
    rw [if_pos ⟨rfl, hne⟩]
    exact ih (fun q hq => hbad q (List.mem_cons_of_mem p hq))

theorem fetchRounds_exhaust (E : Oracles) (env : NetEnv) (reference : List Nat) :
    ∀ (n tries : Nat), MAX_PEER_RETRIES ≤ tries + n →
    (∀ t, tries ≤ t → t < MAX_PEER_RETRIES →
      scanPeers E env reference true ((env.getPeers (reference.take 20) t).flatten) =
        Except.error none) →
    fetchRounds E env reference true tries =
      Except.error (FetchErr.blockNotFound "Failed to fetch valid block.") := by
  intro n
  induction n with
  | zero =>
    intro tries hle _
    rw [fetchRounds, dif_neg (by omega)]
  | succ n ih =>
    intro tries hle hbad
    rw [fetchRounds]
    split
    · rename_i hlt
      rw [hbad tries le_rfl hlt]
      exact ih (tries + 1) (by omega) (fun t ht hlt2 => hbad t (by omega) hlt2)
    · rfl

/-- C5: with verification enabled, `fetch_block` returns a block only
when its unkeyed hash equals the requested reference; a mismatching
body is skipped and the next peer tried; an unbootstrapped DHT fails
at once with `BlockNotFound`; when every peer of every round serves a
body that fails verification, the loop exhausts its
`MAX_PEER_RETRIES = 3` rounds and fails with `BlockNotFound`. -/
theorem C5_fetch_verify :
    (∀ (E : Oracles) (env : NetEnv) (reference b : List Nat),
      fetch_block E env reference true = Except.ok b → E.hash b = reference) ∧
    (∀ (E : Oracles) (env : NetEnv) (reference : List Nat) (p : Nat) (rest : List Nat)
      (body : List Nat), env.http p reference = Except.ok body →
      E.hash body ≠ reference →
      scanPeers E env reference true (p :: rest) = scanPeers E env reference true rest) ∧
    (∀ (E : Oracles) (env : NetEnv) (reference : List Nat) (check : Bool),
      env.bootstrapped = false →
      fetch_block E env reference check =
        Except.error (FetchErr.blockNotFound "DHT failed to bootstrap.")) ∧
    (∀ (E : Oracles) (env : NetEnv) (reference : List Nat),
      env.bootstrapped = true →
      (∀ t < MAX_PEER_RETRIES, ∀ p ∈ (env.getPeers (reference.take 20) t).flatten,
        ∃ body, env.http p reference = Except.ok body ∧ E.hash body ≠ reference) →
      fetch_block E env reference true =
        Except.error (FetchErr.blockNotFound "Failed to fetch valid block.")) ∧
    MAX_PEER_RETRIES = 3 := by
  refine ⟨?_, ?_, ?_, ?_, rfl⟩
  · intro E env reference b h
    rw [fetch_block] at h
    split at h
    · exact fetchRounds_ok_hash E env reference MAX_PEER_RETRIES 0 b (by omega) h
    · simp at h
  · intro E env reference p rest body hb hne
    rw [scanPeers, hb]
    show (if true = true ∧ E.hash body ≠ reference then
      scanPeers E env reference true rest else Except.ok body) =
      scanPeers E env reference true rest
    rw [if_pos ⟨rfl, hne⟩]
  · intro E env reference check hboot
    rw [fetch_block, if_neg (by simp [hboot])]
  · intro E env reference hboot hbad
    rw [fetch_block, if_pos hboot]
    exact fetchRounds_exhaust E env reference MAX_PEER_RETRIES 0 (by omega)
      (fun t _ hlt => scanPeers_all_bad E env reference _ (hbad t hlt))

/-- C5 witness: each part of the fetch-and-verify statement evaluated
on concrete environments: a verified success in `env6`, retry
exhaustion in `env5`, the unbootstrapped failure in `env5b`, and the
skip of a mismatching peer. -/
theorem C5_fetch_verify_witness :
    Ew.hash [7] = ref4 ∧
    fetch_block Ew env5 ref5 true =
      Except.error (FetchErr.blockNotFound "Failed to fetch valid block.") ∧
    fetch_block Ew env5b ref5 true =
      Except.error (FetchErr.blockNotFound "DHT failed to bootstrap.") ∧
    scanPeers Ew env5 ref5 true [0, 1] = scanPeers Ew env5 ref5 true [1] := by
  refine ⟨?_, ?_, ?_, ?_⟩
  · have h1 : fetch_block Ew env6 ref4 true = Except.ok [7] := by
      have hb : env6.bootstrapped = true := rfl
      have hh : env6.http 0 ref4 = Except.ok [7] := rfl
      have hscan : scanPeers Ew env6 ref4 true [0] = Except.ok [7] := by
        rw [scanPeers, hh]
        show (if true = true ∧ Ew.hash [7] ≠ ref4 then
          scanPeers Ew env6 ref4 true [] else Except.ok [7]) = Except.ok [7]
        rw [if_neg (by decide)]
      have hs : (env6.getPeers (ref4.take 20) 0).flatten = [0] := rfl
      rw [fetch_block, if_pos hb, fetchRounds,
        dif_pos (by norm_num [MAX_PEER_RETRIES]), hs, hscan]
    exact C5_fetch_verify.1 Ew env6 ref4 [7] h1
  · exact C5_fetch_verify.2.2.2.1 Ew env5 ref5 rfl
      (fun t _ p _ => ⟨[9], rfl, by decide⟩)
  · exact C5_fetch_verify.2.2.1 Ew env5b ref5 true rfl
  · exact C5_fetch_verify.2.1 Ew env5 ref5 0 [1] [9] rfl (by decide)

/-- C7: for a query string that parses as a full read capability, when
the decode succeeds the response is shaped by the exact `Accept`
header: `application/json` yields 200 with the parsed JSON or 422 when
the bytes do not parse; `application/octet-stream` yields 200 with the
raw bytes; any other or missing `Accept` yields 404; and when the
decode fails the response is 404 regardless of the header. -/
theorem C7_n2r_shape (E : Oracles) (s : ApiState) (env : NetEnv) (query : String)
    (cap : ReadCapability) (hcap : ReadCapability.fromUrn query = some cap) :
    (∀ buf, decode E (resolverOf E s env) cap = some buf →
      (name_to_resource E s env (some "application/json") query =
        match E.parseJson buf with
        | some j => (200, RespBody.jsonVal j)
        | none => (422, RespBody.msg "Entity is not JSON")) ∧
      name_to_resource E s env (some "application/octet-stream") query =
        (200, RespBody.raw buf) ∧
      (∀ a, a ≠ "application/json" → a ≠ "application/octet-stream" →
        name_to_resource E s env (some a) query =
          (404, RespBody.msg "Failed to fetch capability.")) ∧
      name_to_resource E s env none query =
        (404, RespBody.msg "Failed to fetch capability.")) ∧
    (decode E (resolverOf E s env) cap = none →
      ∀ accept, name_to_resource E s env accept query =
        (404, RespBody.msg "Failed to dereference capability.")) := by
  constructor
  · intro buf hdec
    refine ⟨?_, ?_, ?_, ?_⟩
    · simp only [name_to_resource, hcap, hdec]
      simp
    · simp only [name_to_resource, hcap, hdec]
      simp
    · intro a h1 h2
      simp only [name_to_resource, hcap, hdec]
      rw [if_neg h1, if_neg h2]
    · simp only [name_to_resource, hcap, hdec]
  · intro hdec accept
    simp only [name_to_resource, hcap, hdec]

/-- C7 witness: the decode-failure branch evaluated on the concrete
capability `cap7` over an empty store and an unbootstrapped DHT. -/
theorem C7_n2r_shape_witness :
    name_to_resource Ew s7 env5b none (capToUrn cap7) =
      (404, RespBody.msg "Failed to dereference capability.") := by
  have hcap : ReadCapability.fromUrn (capToUrn cap7) = some cap7 := by decide
  have hres : resolverOf Ew s7 env5b (List.replicate 32 0) = none := by
    simp [resolverOf, read_block, fetch_block, env5b, s7]
  have hdt : decodeTree Ew (resolverOf Ew s7 env5b) cap7.level
      (cap7.rootRef, cap7.rootKey) = none := by
    show decodeTree Ew (resolverOf Ew s7 env5b) 0 (cap7.rootRef, cap7.rootKey) = none
    rw [decodeTree]
    rw [show cap7.rootRef = List.replicate 32 0 from rfl, hres]
  have hdec : decode Ew (resolverOf Ew s7 env5b) cap7 = none := by
    simp [decode, hdt]
  exact (C7_n2r_shape Ew s7 env5b (capToUrn cap7) cap7 hcap).2 hdec none

theorem isPrefixOf_append (pat : List Char) : ∀ (l : List Char),
    pat.isPrefixOf l = true ↔ ∃ t, l = pat ++ t := by
  induction pat with
  | nil =>
    intro l
    simp [List.isPrefixOf]
  | cons a pa ih =>
    intro l
    cases l with
    | nil => simp [List.isPrefixOf]
    | cons b lb =>
      constructor
      · intro h
        simp only [List.isPrefixOf, Bool.and_eq_true, beq_iff_eq] at h
        obtain ⟨t, ht⟩ := (ih lb).mp h.2
        exact ⟨t, by simp [← h.1, ht]⟩
      · rintro ⟨t, ht⟩
        simp only [List.cons_append, List.cons.injEq] at ht
        simp only [List.isPrefixOf, Bool.and_eq_true, beq_iff_eq]
        exact ⟨ht.1.symm, (ih lb).mpr ⟨t, ht.2⟩⟩

theorem splitOnceTail_some_iff (pat : List Char) (hne : pat ≠ []) :
    ∀ (l : List Char),
    (∃ suffix, splitOnceTail pat l = some suffix) ↔
      ∃ pre post, l = pre ++ pat ++ post := by
  intro l
  induction l with
  | nil =>
    constructor
    · rintro ⟨suffix, hsuf⟩
      have hfalse : pat.isPrefixOf ([] : List Char) = false := by
        cases pat with
        | nil => exact absurd rfl hne
        | cons a pa => rfl
      rw [splitOnceTail, hfalse] at hsuf
      simp at hsuf
    · rintro ⟨pre, post, hl⟩
      exfalso
      have := congrArg List.length hl
      have hp0 : pat.length ≠ 0 := by
        intro h0
        exact hne (List.length_eq_zero.mp h0)
      simp at this
      omega
  | cons c rest ih =>
    by_cases hp : pat.isPrefixOf (c :: rest) = true
    · constructor
      · intro _
        obtain ⟨t, ht⟩ := (isPrefixOf_append pat (c :: rest)).mp hp
        exact ⟨[], t, by simp [ht]⟩
      · intro _
        exact ⟨(c :: rest).drop pat.length, by rw [splitOnceTail, if_pos hp]⟩
    · have hL : splitOnceTail pat (c :: rest) = splitOnceTail pat rest := by
        rw [splitOnceTail, if_neg hp]
      rw [hL, ih]
      constructor
      · rintro ⟨pre, post, hrest⟩
        exact ⟨c :: pre, post, by simp [hrest]⟩
      · rintro ⟨pre, post, hl⟩
        cases pre with
        | nil =>
          exfalso
          apply hp
          simp only [List.nil_append] at hl
          exact (isPrefixOf_append pat (c :: rest)).mpr ⟨post, hl⟩
        | cons c2 pre2 =>
          simp only [List.cons_append, List.cons.injEq] at hl
          exact ⟨pre2, post, hl.2⟩

/-- C8: `urn_to_ref` returns a 32-byte reference exactly when the
input contains `urn:` and the text after the first `urn:` decodes
under unpadded RFC 4648 base32 to exactly 32 bytes, in which case the
result is those bytes; every other input yields no reference. -/
theorem C8_urn_to_ref (s : String) :
    (∀ r, urn_to_ref s = some r ↔
      ∃ suffix, splitOnceTail ("urn:".data) s.data = some suffix ∧
        b32Decode suffix = some r ∧ r.length = 32) ∧
    ((∃ suffix, splitOnceTail ("urn:".data) s.data = some suffix) ↔
      ∃ pre post, s.data = pre ++ "urn:".data ++ post) := by
  constructor
  · intro r
    constructor
    · intro h
      rw [urn_to_ref] at h
      cases hs : splitOnceTail "urn:".data s.data with
      | none =>
        rw [hs] at h
        simp at h
      | some suffix =>
        rw [hs] at h
        replace h : (match b32Decode suffix with
          | some bytes => if bytes.length = 32 then some bytes else none
          | none => none) = some r := h
        cases hb : b32Decode suffix with
        | none =>
          rw [hb] at h
          simp at h
        | some bytes =>
          rw [hb] at h
          replace h : (if bytes.length = 32 then some bytes else none) = some r := h
          by_cases hlb : bytes.length = 32
          · rw [if_pos hlb] at h
            simp only [Option.some.injEq] at h
            subst h
            exact ⟨suffix, rfl, hb, hlb⟩
          · rw [if_neg hlb] at h
            simp at h
    · rintro ⟨suffix, hs, hb, hl⟩
      rw [urn_to_ref, hs]
      show (match b32Decode suffix with
        | some bytes => if bytes.length = 32 then some bytes else none
        | none => none) = some r
      rw [hb]
      show (if r.length = 32 then some r else none) = some r
      rw [if_pos hl]
  · exact splitOnceTail_some_iff "urn:".data (by decide) s.data

/-- C8 witness: a URN whose suffix is 52 base32 characters decoding to
the 32 zero bytes. -/
theorem C8_urn_to_ref_witness :
    urn_to_ref "urn:AAAAAAAAAAAAAAAAAAAAAAAAAAAAAAAAAAAAAAAAAAAAAAAAAAAA" = some (List.replicate 32 0) := by
  apply ((C8_urn_to_ref "urn:AAAAAAAAAAAAAAAAAAAAAAAAAAAAAAAAAAAAAAAAAAAAAAAAAAAA").1 (List.replicate 32 0)).mpr
  refine ⟨"AAAAAAAAAAAAAAAAAAAAAAAAAAAAAAAAAAAAAAAAAAAAAAAAAAAA".data, ?_, ?_, ?_⟩
  · decide
  · decide
  · decide
